import Mathlib

/-!
Verification development for the log-structured key-value store in
`src/kvs/src/kv.rs` (crate `kvs`): the command log, the in-memory
key → location index, replay at open, and online compaction.

Modelling conventions:
* Bytes are natural numbers, the log file is a `List Nat`.
* Keys and values are natural numbers.
* The MessagePack codec (`rmp_serde`, an external crate) is modelled by an
  idealized self-delimiting encoding `encodeCommand` / `decodeCommand`;
  per spec §4.2 the engine relies only on the encoding being
  length-self-determining.
* The position-tracking buffered reader/writer (the crate's `io` module,
  modelled from the spec §4.5): the tracked position is the byte offset in the
  underlying file, a flushed write of a buffer at the writer position splices
  the bytes into the file at that offset, and the engine only ever writes at
  end-of-file.
* `BTreeMap<String, CommandPos>` is modelled as an association list kept
  sorted by key (`idxInsert` inserts in order, mirroring the ordered map and
  its ordered iteration used by the compactor).
* Filesystem paths, file creation and the atomic rename are collapsed: the
  state holds the current content of the authoritative log.  I/O errors do not
  occur in the model, except for `KvStore.compactFaulty` /
  `KvStore.setFaulty` / `KvStore.removeFaulty`, which inject a failure of
  `std::io::copy` while compaction processes a chosen index entry, to study
  the error path of `set` / `remove`.
-/

/-- The commands serialized to the log (`enum Command` in `kv.rs`). -/
inductive Command where
  | Set (key value : Nat)
  | Rm (key : Nat)
deriving DecidableEq, Repr

/-- Modelled from the spec: §4.2 record framing.  `rmp_serde` (an external
crate) is replaced by a minimal self-describing binary encoding: a tag byte
followed by the payload. -/
def encodeCommand : Command → List Nat
  | .Set k v => [0, k, v]
  | .Rm k => [1, k]

/-- Modelled from the spec: §4.2 — the decoder matching `encodeCommand`.
Returns the decoded command together with the exact number of bytes it
consumed from the stream; `none` models an `rmp_serde` decode error
(corrupt or truncated record). -/
def decodeCommand : List Nat → Option (Command × Nat)
  | tag :: k :: v :: _ =>
      if tag = 0 then some (.Set k v, 3)
      else if tag = 1 then some (.Rm k, 2)
      else none
  | [tag, k] => if tag = 1 then some (.Rm k, 2) else none
  | _ => none

/-- The position and length of a serialized command in the log
(`struct CommandPos` in `kv.rs`). -/
structure CommandPos where
  pos : Nat
  len : Nat
deriving DecidableEq, Repr

/-- The in-memory index: `BTreeMap<String, CommandPos>`, modelled as an
association list kept sorted by key. -/
abbrev Index := List (Nat × CommandPos)

/-- `BTreeMap::get`. -/
def idxLookup : Index → Nat → Option CommandPos
  | [], _ => none
  | (k', cp) :: t, k => if k = k' then some cp else idxLookup t k

/-- `BTreeMap::insert`: returns the updated map together with the displaced
entry, keeping the list sorted by key. -/
def idxInsert : Index → Nat → CommandPos → Index × Option CommandPos
  | [], k, cp => ([(k, cp)], none)
  | (k', cp') :: t, k, cp =>
      if k < k' then ((k, cp) :: (k', cp') :: t, none)
      else if k = k' then ((k, cp) :: t, some cp')
      else
        let r := idxInsert t k cp
        ((k', cp') :: r.1, r.2)

/-- `BTreeMap::remove`: returns the updated map together with the removed
entry. -/
def idxRemove : Index → Nat → Index × Option CommandPos
  | [], _ => ([], none)
  | (k', cp') :: t, k =>
      if k = k' then (t, some cp')
      else
        let r := idxRemove t k
        ((k', cp') :: r.1, r.2)

/-- Amount of "wasted" bytes before a compaction is triggered after an
operation (`COMPACTION_THRESHOLD` in `kv.rs`, 1 MiB). -/
def COMPACTION_THRESHOLD : Nat := 1024 * 1024

/-- The errors of the crate (`KvsError` in `error.rs`).  `Io`, `Ser` and
`Des` carry no payload in the model. -/
inductive KvsError where
  | Io
  | Ser
  | Des
  | NonExistentKey (key : Nat)
  | UnexpectedCommandType
deriving DecidableEq, Repr

deriving instance DecidableEq for Except

/-- The engine state (`struct KvStore` in `kv.rs`).  `log` is the byte
content of `kvs.log`; `readerPos` / `writerPos` are the tracked positions of
the two handles; the `path` field is dropped (file identity is implicit). -/
structure KvStore where
  log : List Nat
  readerPos : Nat
  writerPos : Nat
  index : Index
  uncompacted : Nat
deriving DecidableEq, Repr

/-- Modelled from the spec: §4.5 — a flushed buffered write of `bs` at file
offset `p` overwrites in place and extends the file as needed.  The engine
only ever writes at end-of-file (`p = log.length`). -/
def writeBytes (log : List Nat) (p : Nat) (bs : List Nat) : List Nat :=
  log.take p ++ bs ++ log.drop (p + bs.length)

/-- `KvStore::get`.  Looks the key up in the index, seeks the reader to the
recorded position, reads at most `len` bytes (`reader.take(cmd_pos.len)`) and
deserializes one command.  Returns the updated state (the reader moved)
together with the result. -/
def KvStore.get (s : KvStore) (key : Nat) : KvStore × Except KvsError (Option Nat) :=
  match idxLookup s.index key with
  | some cp =>
      match decodeCommand ((s.log.drop cp.pos).take cp.len) with
      | some (.Set _ v, n) => ({ s with readerPos := cp.pos + n }, .ok (some v))
      | some (.Rm _, n) => ({ s with readerPos := cp.pos + n }, .error .UnexpectedCommandType)
      | none => ({ s with readerPos := cp.pos }, .error .Des)
  | none => (s, .ok none)

/-- One step of `KvStore::compact`'s loop over `self.index.values_mut()`:
copy the bytes of each live entry into the new log (`std::io::copy` on a
`take(len)` reader copies up to `len` bytes, fewer at end-of-file) and
re-point the entry to its new position.  `start` is the position of the
compaction writer. -/
def compactGo (log : List Nat) (start : Nat) : Index → Index × List Nat
  | [] => ([], [])
  | (k, cp) :: rest =>
      let copied := (log.drop cp.pos).take cp.len
      let r := compactGo log (start + copied.length) rest
      ((k, ⟨start, copied.length⟩) :: r.1, copied ++ r.2)

/-- `KvStore::compact`.  Copies every live record verbatim into `new.log`,
renames it over `kvs.log`, swaps the writer to the compaction writer and
reopens the reader.  Note that the source never resets `uncompacted`. -/
def KvStore.compact (s : KvStore) : KvStore :=
  let r := compactGo s.log 0 s.index
  { log := r.2, readerPos := 0, writerPos := r.2.length,
    index := r.1, uncompacted := s.uncompacted }

/-- `KvStore::set`.  Appends a `Set` record at the writer position, inserts
the key with the record's byte range into the index, adds a displaced
entry's length to `uncompacted`, and compacts when `uncompacted` exceeds the
threshold. -/
def KvStore.set (s : KvStore) (key value : Nat) : KvStore :=
  let pos := s.writerPos
  let bs := encodeCommand (.Set key value)
  let log1 := writeBytes s.log pos bs
  let newPos := pos + bs.length
  let r := idxInsert s.index key ⟨pos, newPos - pos⟩
  let unc := s.uncompacted + (match r.2 with | some old => old.len | none => 0)
  let s1 : KvStore := { log := log1, readerPos := s.readerPos, writerPos := newPos,
                        index := r.1, uncompacted := unc }
  if COMPACTION_THRESHOLD < unc then s1.compact else s1

/-- `KvStore::remove`.  Removes the key from the index; if it was absent,
fails with `NonExistentKey` without touching anything; otherwise appends a
`Rm` record, adds the record's size and the removed entry's length to
`uncompacted`, and compacts when the threshold is exceeded. -/
def KvStore.remove (s : KvStore) (key : Nat) : KvStore × Option KvsError :=
  let pos := s.writerPos
  let r := idxRemove s.index key
  match r.2 with
  | some old =>
      let bs := encodeCommand (.Rm key)
      let log1 := writeBytes s.log pos bs
      let newPos := pos + bs.length
      let unc := s.uncompacted + (newPos - pos) + old.len
      let s1 : KvStore := { log := log1, readerPos := s.readerPos, writerPos := newPos,
                            index := r.1, uncompacted := unc }
      if COMPACTION_THRESHOLD < unc then (s1.compact, none) else (s1, none)
  | none => (s, some (.NonExistentKey key))

/-- The loop of `load` in `kv.rs`: starting at `pos`, repeatedly deserialize
one command and dispatch; a `Set` (re)inserts the key, a `Rm` removes it,
counting the removed entry's length and the `Rm` record's own size into
`uncompacted`.  Structural recursion on a fuel counter; one unit of fuel per
iteration, so any `fuel` with `log.length ≤ pos + fuel` computes the loop
exactly (each record consumes at least one byte). -/
def loadGo (log : List Nat) : Nat → Nat → Index → Nat → Except KvsError (Index × Nat)
  | fuel + 1, pos, index, unc =>
      if pos < log.length then
        match decodeCommand (log.drop pos) with
        | none => .error .Des
        | some (.Set k _, n) =>
            loadGo log fuel (pos + n) (idxInsert index k ⟨pos, n⟩).1 unc
        | some (.Rm k, n) =>
            let r := idxRemove index k
            let unc1 := match r.2 with | some old => unc + old.len | none => unc
            loadGo log fuel (pos + n) r.1 (unc1 + n)
      else .ok (index, unc)
  | 0, _, index, unc => .ok (index, unc)

/-- `load` in `kv.rs`: replay the whole log from offset 0, rebuilding the
index and returning the accumulated `uncompacted`. -/
def load (log : List Nat) : Except KvsError (Index × Nat) :=
  loadGo log (log.length + 1) 0 [] 0

/-- `KvStore::open`: replay the log to rebuild the index and the
`uncompacted` total, then position the write handle at end-of-file.  (The
reader also ends at end-of-file after the replay.) -/
def openStore (log : List Nat) : Except KvsError KvStore :=
  match load log with
  | .error e => .error e
  | .ok (idx, unc) =>
      .ok { log := log, readerPos := log.length, writerPos := log.length,
            index := idx, uncompacted := unc }

/-- The empty store produced by `KvStore::open` on an empty data
directory. -/
def emptyStore : KvStore :=
  { log := [], readerPos := 0, writerPos := 0, index := [], uncompacted := 0 }

/-- Fault injection for `KvStore::compact`: the prefix of the index that was
already re-pointed in place (`values_mut`) when `std::io::copy` fails on the
`failAt`-th entry (0-based). -/
def compactFaultyGo (log : List Nat) (start : Nat) : Index → Nat → Index
  | t, 0 => t
  | [], _ + 1 => []
  | (k, cp) :: rest, j + 1 =>
      let copied := (log.drop cp.pos).take cp.len
      (k, ⟨start, copied.length⟩) :: compactFaultyGo log (start + copied.length) rest j

/-- `KvStore::compact` with an injected I/O failure: `std::io::copy` fails
while processing the `failAt`-th index entry.  Entries before it have already
been re-pointed in place; the swap of the log, writer and reader never
happens, and the error propagates.  When `failAt` is past the last entry the
compaction succeeds. -/
def KvStore.compactFaulty (s : KvStore) (failAt : Nat) : KvStore × Option KvsError :=
  if failAt < s.index.length then
    ({ s with index := compactFaultyGo s.log 0 s.index failAt }, some .Io)
  else (s.compact, none)

/-- `KvStore::set` when the triggered compaction fails as in
`compactFaulty`. -/
def KvStore.setFaulty (s : KvStore) (key value : Nat) (failAt : Nat) :
    KvStore × Option KvsError :=
  let pos := s.writerPos
  let bs := encodeCommand (.Set key value)
  let log1 := writeBytes s.log pos bs
  let newPos := pos + bs.length
  let r := idxInsert s.index key ⟨pos, newPos - pos⟩
  let unc := s.uncompacted + (match r.2 with | some old => old.len | none => 0)
  let s1 : KvStore := { log := log1, readerPos := s.readerPos, writerPos := newPos,
                        index := r.1, uncompacted := unc }
  if COMPACTION_THRESHOLD < unc then s1.compactFaulty failAt else (s1, none)

/-- `KvStore::remove` when the triggered compaction fails as in
`compactFaulty`. -/
def KvStore.removeFaulty (s : KvStore) (key : Nat) (failAt : Nat) :
    KvStore × Option KvsError :=
  let pos := s.writerPos
  let r := idxRemove s.index key
  match r.2 with
  | some old =>
      let bs := encodeCommand (.Rm key)
      let log1 := writeBytes s.log pos bs
      let newPos := pos + bs.length
      let unc := s.uncompacted + (newPos - pos) + old.len
      let s1 : KvStore := { log := log1, readerPos := s.readerPos, writerPos := newPos,
                            index := r.1, uncompacted := unc }
      if COMPACTION_THRESHOLD < unc then s1.compactFaulty failAt else (s1, none)
  | none => (s, some (.NonExistentKey key))

/-- A public operation of the engine API. -/
inductive Op where
  | set (key value : Nat)
  | remove (key : Nat)
  | get (key : Nat)
deriving DecidableEq, Repr

/-- Run a sequence of public operations on an engine instance.  A failed
`remove` (absent key) leaves the state untouched, exactly as the source
does. -/
def runOps (s : KvStore) : List Op → KvStore
  | [] => s
  | op :: rest =>
      let s1 := match op with
        | .set k v => s.set k v
        | .remove k => (s.remove k).1
        | .get k => (s.get k).1
      runOps s1 rest

/-- Modelled from the spec: §8 — the abstract key → value mapping that a
sequence of operations denotes ("the value of the most recent successful
`set`, erased by a later `remove`").  This is the specification side of the
refinement claims, written from the spec's words. -/
def specStep (m : Nat → Option Nat) : Op → (Nat → Option Nat)
  | .set k v => fun j => if j = k then some v else m j
  | .remove k => fun j => if j = k then none else m j
  | .get _ => m

/-- Modelled from the spec: the abstract mapping after a whole sequence of
operations. -/
def specRun (m : Nat → Option Nat) : List Op → (Nat → Option Nat)
  | [] => m
  | op :: rest => specRun (specStep m op) rest

/-- States produced by successful public operations: `open` on any log that
replays, followed by any number of `set` / `remove` / `get` calls (a failed
`remove` returns the state unchanged). -/
inductive Reachable : KvStore → Prop where
  | openR (log : List Nat) (s : KvStore) : openStore log = .ok s → Reachable s
  | setR (s : KvStore) (k v : Nat) : Reachable s → Reachable (s.set k v)
  | removeR (s : KvStore) (k : Nat) : Reachable s → Reachable ((s.remove k).1)
  | getR (s : KvStore) (k : Nat) : Reachable s → Reachable ((s.get k).1)

/-- Invariant 1 of the spec's data model for a single index entry: the
recorded byte range of the current log deserializes to a `Set` record for
exactly the index key, consuming exactly `len` bytes. -/
def entryExact (log : List Nat) (k : Nat) (cp : CommandPos) : Prop :=
  ∃ v, decodeCommand ((log.drop cp.pos).take cp.len) = some (.Set k v, cp.len)

/-! ### Properties of the record framing -/

theorem decodeCommand_length_pos {l : List Nat} {p : Command × Nat}
    (h : decodeCommand l = some p) : 0 < p.2 := by
  unfold decodeCommand at h
  split at h
  · split_ifs at h <;> cases h <;> simp
  · split_ifs at h; cases h; simp
  · cases h

theorem decodeCommand_length_le {l : List Nat} {p : Command × Nat}
    (h : decodeCommand l = some p) : p.2 ≤ l.length := by
  unfold decodeCommand at h
  split at h
  · split_ifs at h <;> cases h <;> simp
  · split_ifs at h; cases h; simp
  · cases h

theorem decodeCommand_append {l : List Nat} {p : Command × Nat} (m : List Nat)
    (h : decodeCommand l = some p) : decodeCommand (l ++ m) = some p := by
  unfold decodeCommand at h
  split at h
  case h_1 tag k v rest =>
    split_ifs at h <;> cases h <;> simp_all [decodeCommand]
  case h_2 tag k =>
    split_ifs at h with h1
    cases h
    cases m with
    | nil => simp [decodeCommand, h1]
    | cons b bs => simp [decodeCommand, h1]
  case h_3 => cases h

theorem decodeCommand_take {l : List Nat} {p : Command × Nat}
    (h : decodeCommand l = some p) : decodeCommand (l.take p.2) = some p := by
  unfold decodeCommand at h
  split at h
  case h_1 tag k v rest =>
    split_ifs at h <;> cases h <;> simp_all [decodeCommand]
  case h_2 tag k =>
    split_ifs at h with h1
    cases h
    simp [decodeCommand, h1]
  case h_3 => cases h

theorem decodeCommand_encode (c : Command) (rest : List Nat) :
    decodeCommand (encodeCommand c ++ rest) = some (c, (encodeCommand c).length) := by
  cases c with
  | Set k v => rfl
  | Rm k => cases rest with | nil => rfl | cons b bs => rfl

theorem encodeCommand_length_pos (c : Command) : 0 < (encodeCommand c).length := by
  cases c <;> simp [encodeCommand]

/-! ### Slice helpers -/

theorem slice_append {log bs : List Nat} {p n : Nat} (h : p + n ≤ log.length) :
    ((log ++ bs).drop p).take n = (log.drop p).take n := by
  rw [List.drop_append_of_le_length (by omega)]
  rw [List.take_append_of_le_length (by simp; omega)]

theorem slice_at_end (log bs : List Nat) :
    ((log ++ bs).drop log.length).take bs.length = bs := by
  rw [List.drop_left, List.take_length bs]

theorem writeBytes_at_end (log bs : List Nat) :
    writeBytes log log.length bs = log ++ bs := by
  unfold writeBytes
  rw [List.take_length log, List.drop_eq_nil_of_le (by simp), List.append_nil]

theorem entryExact_bound {log : List Nat} {k : Nat} {cp : CommandPos}
    (h : entryExact log k cp) : cp.pos + cp.len ≤ log.length := by
  obtain ⟨v, hv⟩ := h
  have hle := decodeCommand_length_le hv
  have hpos := decodeCommand_length_pos hv
  simp [List.length_take, List.length_drop] at hle
  omega

theorem entryExact_append {log bs : List Nat} {k : Nat} {cp : CommandPos}
    (h : entryExact log k cp) : entryExact (log ++ bs) k cp := by
  obtain ⟨v, hv⟩ := h
  exact ⟨v, by rw [slice_append (entryExact_bound ⟨v, hv⟩)]; exact hv⟩

/-! ### Properties of the index operations

`IdxSorted t` is the representation invariant of the `BTreeMap` model: the
association list is strictly sorted by key (hence keys are distinct). -/

def IdxSorted (t : Index) : Prop := t.Pairwise (fun a b => a.1 < b.1)

theorem idxSorted_nil : IdxSorted [] := List.Pairwise.nil

theorem idxSorted_cons {e : Nat × CommandPos} {t : Index} :
    IdxSorted (e :: t) ↔ (∀ f ∈ t, e.1 < f.1) ∧ IdxSorted t := by
  simp [IdxSorted, List.pairwise_cons]

theorem idxLookup_eq_none_of_lt {t : Index} {k : Nat}
    (h : ∀ e ∈ t, k ≠ e.1) : idxLookup t k = none := by
  induction t with
  | nil => rfl
  | cons e t ih =>
      obtain ⟨k', cp'⟩ := e
      have h1 : k ≠ k' := h (k', cp') (by simp)
      simp only [idxLookup, if_neg h1]
      exact ih fun e he => h e (by simp [he])

theorem idxLookup_idxInsert (t : Index) (k : Nat) (cp : CommandPos) (j : Nat) :
    idxLookup (idxInsert t k cp).1 j = if j = k then some cp else idxLookup t j := by
  induction t with
  | nil => by_cases h : j = k <;> simp [idxInsert, idxLookup, h]
  | cons e t ih =>
      obtain ⟨k', cp'⟩ := e
      by_cases h1 : k < k'
      · by_cases h3 : j = k <;> simp [idxInsert, idxLookup, h1, h3]
      · by_cases h2 : k = k'
        · subst h2
          by_cases h3 : j = k <;> simp [idxInsert, idxLookup, h1, h3]
        · by_cases h3 : j = k
          · subst h3
            have h4 : ¬ j = k' := h2
            simp [idxInsert, idxLookup, h1, h2, h4, ih]
          · by_cases h4 : j = k'
            · subst h4
              have h5 : ¬ j = k := h3
              simp [idxInsert, idxLookup, h1, h2, h5]
            · simp [idxInsert, idxLookup, h1, h2, h3, h4, ih]

theorem idxInsert_snd {t : Index} (hs : IdxSorted t) (k : Nat) (cp : CommandPos) :
    (idxInsert t k cp).2 = idxLookup t k := by
  induction t with
  | nil => rfl
  | cons e t ih =>
      obtain ⟨k', cp'⟩ := e
      rw [idxSorted_cons] at hs
      obtain ⟨hlt, hp⟩ := hs
      by_cases h1 : k < k'
      · have h2 : ¬ k = k' := by omega
        have hnone : idxLookup t k = none :=
          idxLookup_eq_none_of_lt fun e he => by have := hlt e he; simp at this ⊢; omega
        simp [idxInsert, idxLookup, h1, h2, hnone]
      · by_cases h2 : k = k' <;> simp [idxInsert, idxLookup, h1, h2, ih hp]

theorem mem_idxInsert {t : Index} {k : Nat} {cp : CommandPos} {e : Nat × CommandPos}
    (h : e ∈ (idxInsert t k cp).1) : e = (k, cp) ∨ e ∈ t := by
  induction t with
  | nil => simpa [idxInsert] using h
  | cons f t ih =>
      obtain ⟨k', cp'⟩ := f
      by_cases h1 : k < k'
      · simp only [idxInsert, if_pos h1, List.mem_cons] at h
        rcases h with h | h | h
        · exact Or.inl h
        · exact Or.inr (by simp [h])
        · exact Or.inr (by simp [h])
      · by_cases h2 : k = k'
        · simp only [idxInsert, if_neg h1, if_pos h2, List.mem_cons] at h
          rcases h with h | h
          · exact Or.inl h
          · exact Or.inr (by simp [h])
        · simp only [idxInsert, if_neg h1, if_neg h2, List.mem_cons] at h
          rcases h with h | h
          · exact Or.inr (by simp [h])
          · rcases ih h with h | h
            · exact Or.inl h
            · exact Or.inr (by simp [h])

theorem idxInsert_sorted {t : Index} {k : Nat} {cp : CommandPos}
    (hs : IdxSorted t) : IdxSorted (idxInsert t k cp).1 := by
  induction t with
  | nil => simp [idxInsert, IdxSorted]
  | cons e t ih =>
      obtain ⟨k', cp'⟩ := e
      rw [idxSorted_cons] at hs
      obtain ⟨hlt, hp⟩ := hs
      by_cases h1 : k < k'
      · simp only [idxInsert, if_pos h1]
        rw [idxSorted_cons]
        constructor
        · intro f hf
          rw [List.mem_cons] at hf
          rcases hf with hf | hf
          · simp [hf]; omega
          · have := hlt f hf
            simp at this ⊢
            omega
        · rw [idxSorted_cons]
          exact ⟨hlt, hp⟩
      · by_cases h2 : k = k'
        · subst h2
          have h3 : (k = k) = True := by simp
          simp only [idxInsert, if_neg h1, h3, if_true]
          rw [idxSorted_cons]
          exact ⟨hlt, hp⟩
        · have h3 : k' < k := by omega
          simp only [idxInsert, if_neg h1, if_neg h2]
          rw [idxSorted_cons]
          constructor
          · intro f hf
            rcases mem_idxInsert hf with hf | hf
            · simp [hf, h3]
            · exact hlt f hf
          · exact ih hp

theorem idxRemove_snd (t : Index) (k : Nat) :
    (idxRemove t k).2 = idxLookup t k := by
  induction t with
  | nil => rfl
  | cons e t ih =>
      obtain ⟨k', cp'⟩ := e
      by_cases h : k = k' <;> simp [idxRemove, idxLookup, h, ih]

theorem idxRemove_sublist (t : Index) (k : Nat) : (idxRemove t k).1.Sublist t := by
  induction t with
  | nil => simp [idxRemove]
  | cons e t ih =>
      obtain ⟨k', cp'⟩ := e
      by_cases h : k = k'
      · simp [idxRemove, h]
      · simpa [idxRemove, h] using List.Sublist.cons₂ (k', cp') ih

theorem idxRemove_sorted {t : Index} {k : Nat} (hs : IdxSorted t) :
    IdxSorted (idxRemove t k).1 :=
  List.Pairwise.sublist (idxRemove_sublist t k) hs

theorem idxLookup_idxRemove {t : Index} (hs : IdxSorted t) (k j : Nat) :
    idxLookup (idxRemove t k).1 j = if j = k then none else idxLookup t j := by
  induction t with
  | nil => by_cases h : j = k <;> simp [idxRemove, idxLookup, h]
  | cons e t ih =>
      obtain ⟨k', cp'⟩ := e
      rw [idxSorted_cons] at hs
      obtain ⟨hlt, hp⟩ := hs
      by_cases h1 : k = k'
      · subst h1
        by_cases h3 : j = k
        · subst h3
          have hnone : idxLookup t j = none :=
            idxLookup_eq_none_of_lt fun e he => by have := hlt e he; simp at this ⊢; omega
          simp [idxRemove, idxLookup, hnone]
        · simp [idxRemove, idxLookup, h3]
      · by_cases h3 : j = k
        · subst h3
          have h5 : ¬ k' = j := fun hh => h1 hh.symm
          simp [idxRemove, idxLookup, h1, h5, ih hp]
        · by_cases h4 : j = k'
          · have h5 : ¬ k' = k := fun hh => h1 hh.symm
            simp [idxRemove, idxLookup, h1, h3, h4, h5]
          · simp [idxRemove, idxLookup, h1, h3, h4, ih hp]

/-! ### Properties of compaction -/

theorem idxLookup_eq_none_iff (t : Index) (k : Nat) :
    idxLookup t k = none ↔ k ∉ t.map Prod.fst := by
  induction t with
  | nil => simp [idxLookup]
  | cons e t ih =>
      obtain ⟨k', cp'⟩ := e
      by_cases h : k = k' <;> simp [idxLookup, h, ih]

theorem idxSorted_iff_keys (t : Index) :
    IdxSorted t ↔ (t.map Prod.fst).Pairwise (· < ·) := by
  simp [IdxSorted, List.pairwise_map]

theorem compactGo_keys (log : List Nat) (start : Nat) (t : Index) :
    (compactGo log start t).1.map Prod.fst = t.map Prod.fst := by
  induction t generalizing start with
  | nil => rfl
  | cons e t ih =>
      obtain ⟨k, cp⟩ := e
      simp [compactGo, ih]

theorem compactGo_sorted {log : List Nat} {start : Nat} {t : Index}
    (hs : IdxSorted t) : IdxSorted (compactGo log start t).1 := by
  rw [idxSorted_iff_keys, compactGo_keys]
  rw [idxSorted_iff_keys] at hs
  exact hs

theorem compactGo_lookup_none {log : List Nat} {start : Nat} {t : Index} {k : Nat}
    (h : idxLookup t k = none) : idxLookup (compactGo log start t).1 k = none := by
  rw [idxLookup_eq_none_iff, compactGo_keys]
  rw [idxLookup_eq_none_iff] at h
  exact h

theorem compactGo_lookup {log : List Nat} {t : Index} {k : Nat} {cp : CommandPos}
    (h : idxLookup t k = some cp) (start : Nat) :
    ∃ q, idxLookup (compactGo log start t).1 k = some q ∧
      start ≤ q.pos ∧
      q.len = ((log.drop cp.pos).take cp.len).length ∧
      ((compactGo log start t).2.drop (q.pos - start)).take q.len
        = (log.drop cp.pos).take cp.len := by
  induction t generalizing start with
  | nil => simp [idxLookup] at h
  | cons e t ih =>
      obtain ⟨k0, cp0⟩ := e
      by_cases hk : k = k0
      · subst hk
        simp only [idxLookup, if_pos rfl] at h
        cases h
        refine ⟨⟨start, ((log.drop cp.pos).take cp.len).length⟩, ?_, ?_, rfl, ?_⟩
        · simp [compactGo, idxLookup]
        · exact Nat.le_refl _
        · simp only [compactGo, Nat.sub_self, List.drop_zero]
          exact List.take_left _ _
      · simp only [idxLookup, if_neg hk] at h
        obtain ⟨q, hq, hle, hlen, hslice⟩ :=
          ih h (start + ((log.drop cp0.pos).take cp0.len).length)
        refine ⟨q, ?_, by omega, hlen, ?_⟩
        · simpa [compactGo, idxLookup, hk] using hq
        · simp only [compactGo]
          have harith : q.pos - start
              = ((log.drop cp0.pos).take cp0.len).length
                + (q.pos - (start + ((log.drop cp0.pos).take cp0.len).length)) := by
            omega
          rw [harith, List.drop_append]
          exact hslice

/-- Compaction preserves every observable `get` result, for any state: the
bytes copied for an entry are exactly the bytes `get` would have read, and
they end up at the entry's new offset. -/
theorem get_after_compact (s : KvStore) (k : Nat) :
    ((KvStore.compact s).get k).2 = (s.get k).2 := by
  cases h : idxLookup s.index k with
  | none =>
      have h2 : idxLookup (KvStore.compact s).index k = none := by
        simpa [KvStore.compact] using @compactGo_lookup_none s.log 0 s.index k h
      simp [KvStore.get, h, h2]
  | some cp =>
      obtain ⟨q, hq, -, -, hslice⟩ := compactGo_lookup h 0
      have hq' : idxLookup (KvStore.compact s).index k = some q := by
        simpa [KvStore.compact] using hq
      have hslice' : ((KvStore.compact s).log.drop q.pos).take q.len
          = (s.log.drop cp.pos).take cp.len := by
        simpa [KvStore.compact] using hslice
      simp only [KvStore.get, h, hq', hslice']
      cases hd : decodeCommand ((s.log.drop cp.pos).take cp.len) with
      | none => rfl
      | some p =>
          obtain ⟨c, n⟩ := p
          cases c <;> rfl

/-! ### Properties of replay -/

theorem loadGo_at_end {log : List Nat} {fuel pos : Nat} {idx : Index} {unc : Nat}
    (h : log.length ≤ pos) : loadGo log fuel pos idx unc = .ok (idx, unc) := by
  cases fuel with
  | zero => rfl
  | succ f => simp [loadGo, Nat.not_lt.mpr h]

theorem loadGo_fuel {log : List Nat} :
    ∀ fuel fuel' pos idx unc, log.length ≤ pos + fuel → log.length ≤ pos + fuel' →
    loadGo log fuel pos idx unc = loadGo log fuel' pos idx unc := by
  intro fuel
  induction fuel with
  | zero =>
      intro fuel' pos idx unc h h'
      rw [loadGo_at_end (by omega), loadGo_at_end (by omega)]
  | succ f ih =>
      intro fuel' pos idx unc h h'
      by_cases hpos : pos < log.length
      · cases fuel' with
        | zero => omega
        | succ f' =>
            simp only [loadGo, if_pos hpos]
            cases hd : decodeCommand (log.drop pos) with
            | none => rfl
            | some p =>
                obtain ⟨c, n⟩ := p
                have hn : 0 < n := decodeCommand_length_pos hd
                have hle : n ≤ log.length - pos := by
                  have := decodeCommand_length_le hd
                  simpa using this
                cases c with
                | Set k v => exact ih f' (pos + n) _ _ (by omega) (by omega)
                | Rm k => exact ih f' (pos + n) _ _ (by omega) (by omega)
      · rw [loadGo_at_end (by omega), loadGo_at_end (by omega)]

theorem loadGo_append {log bs : List Nat} :
    ∀ fuel pos idx unc r, pos ≤ log.length → log.length ≤ pos + fuel →
    loadGo log fuel pos idx unc = .ok r →
    ∀ fuel2, (log ++ bs).length ≤ log.length + fuel2 →
    loadGo (log ++ bs) (fuel + fuel2) pos idx unc
      = loadGo (log ++ bs) fuel2 log.length r.1 r.2 := by
  intro fuel
  induction fuel with
  | zero =>
      intro pos idx unc r h1 h2 hr fuel2 hf2
      have hpos : pos = log.length := by omega
      subst hpos
      rw [loadGo_at_end (le_refl _)] at hr
      cases hr
      simp
  | succ f ih =>
      intro pos idx unc r h1 h2 hr fuel2 hf2
      by_cases hpos : pos < log.length
      · rw [loadGo] at hr
        rw [if_pos hpos] at hr
        have hpos2 : pos < (log ++ bs).length := by simp; omega
        have hdrop : (log ++ bs).drop pos = log.drop pos ++ bs :=
          List.drop_append_of_le_length (by omega)
        cases hd : decodeCommand (log.drop pos) with
        | none => rw [hd] at hr; cases hr
        | some p =>
            obtain ⟨c, n⟩ := p
            rw [hd] at hr
            have hn : 0 < n := decodeCommand_length_pos hd
            have hle : n ≤ log.length - pos := by
              have := decodeCommand_length_le hd
              simpa using this
            have hd2 : decodeCommand ((log ++ bs).drop pos) = some (c, n) := by
              rw [hdrop]; exact decodeCommand_append bs hd
            have hfs : f + 1 + fuel2 = (f + fuel2) + 1 := by omega
            cases c with
            | Set k v =>
                have hstep : loadGo (log ++ bs) (f + 1 + fuel2) pos idx unc
                    = loadGo (log ++ bs) (f + fuel2) (pos + n)
                        (idxInsert idx k ⟨pos, n⟩).1 unc := by
                  rw [hfs, loadGo, if_pos hpos2, hd2]
                rw [hstep]
                exact ih (pos + n) _ _ r (by omega) (by omega) hr fuel2 hf2
            | Rm k =>
                have hstep : loadGo (log ++ bs) (f + 1 + fuel2) pos idx unc
                    = loadGo (log ++ bs) (f + fuel2) (pos + n) (idxRemove idx k).1
                        ((match (idxRemove idx k).2 with
                          | some old => unc + old.len
                          | none => unc) + n) := by
                  rw [hfs, loadGo, if_pos hpos2, hd2]
                rw [hstep]
                exact ih (pos + n) _ _ r (by omega) (by omega) hr fuel2 hf2
      · have hpos' : pos = log.length := by omega
        subst hpos'
        rw [loadGo_at_end (le_refl _)] at hr
        cases hr
        exact loadGo_fuel (f + 1 + fuel2) fuel2 _ _ _ (by simp at hf2 ⊢; omega)
          (by simp at hf2 ⊢; omega)

theorem decodeCommand_encode_nil (c : Command) :
    decodeCommand (encodeCommand c) = some (c, (encodeCommand c).length) := by
  have := decodeCommand_encode c []
  simpa using this

/-- Replay of a log extended by one appended record: the index and the
`uncompacted` total evolve by exactly the loop body of `load`, at position
`log.length`. -/
theorem load_append_cmd {log : List Nat} {ri : Index} {ru : Nat} (c : Command)
    (h : load log = .ok (ri, ru)) :
    load (log ++ encodeCommand c) =
      (match c with
       | .Set k _ => .ok ((idxInsert ri k ⟨log.length, (encodeCommand c).length⟩).1, ru)
       | .Rm k =>
          .ok ((idxRemove ri k).1,
            (match (idxRemove ri k).2 with
             | some old => ru + old.len
             | none => ru) + (encodeCommand c).length)) := by
  have hlen : (log ++ encodeCommand c).length = log.length + (encodeCommand c).length := by
    simp
  have h1 : load (log ++ encodeCommand c)
      = loadGo (log ++ encodeCommand c) ((log.length + 1) + ((encodeCommand c).length + 1))
          0 [] 0 := by
    unfold load
    exact loadGo_fuel _ _ _ _ _ (by simp) (by simp; omega)
  rw [h1]
  rw [loadGo_append (log.length + 1) 0 [] 0 (ri, ru) (by omega) (by omega) h
      ((encodeCommand c).length + 1) (by simp)]
  have hpos : log.length < (log ++ encodeCommand c).length := by
    have := encodeCommand_length_pos c
    simp
    omega
  rw [loadGo]
  rw [if_pos hpos]
  have hdrop : (log ++ encodeCommand c).drop log.length = encodeCommand c :=
    List.drop_left _ _
  rw [hdrop, decodeCommand_encode_nil c]
  cases c with
  | Set k v =>
      simp only
      rw [loadGo_at_end (by simp)]
  | Rm k =>
      simp only
      rw [loadGo_at_end (by simp)]

theorem loadGo_zero (log : List Nat) (pos : Nat) (idx : Index) (unc : Nat) :
    loadGo log 0 pos idx unc = .ok (idx, unc) := rfl

/-- Replay produces a sorted index whose every entry points at an exactly
framed `Set` record of the log (the `Set` branch of the loop inserts the
consumed byte range; the `Rm` branch only removes). -/
theorem loadGo_inv {log : List Nat} :
    ∀ fuel pos idx unc r, IdxSorted idx →
    (∀ k cp, idxLookup idx k = some cp → entryExact log k cp) →
    loadGo log fuel pos idx unc = .ok r →
    IdxSorted r.1 ∧ ∀ k cp, idxLookup r.1 k = some cp → entryExact log k cp := by
  intro fuel
  induction fuel with
  | zero =>
      intro pos idx unc r hs hex hr
      rw [loadGo_zero] at hr
      cases hr
      exact ⟨hs, hex⟩
  | succ f ih =>
      intro pos idx unc r hs hex hr
      by_cases hpos : pos < log.length
      · rw [loadGo, if_pos hpos] at hr
        cases hd : decodeCommand (log.drop pos) with
        | none => rw [hd] at hr; cases hr
        | some p =>
            obtain ⟨c, n⟩ := p
            rw [hd] at hr
            cases c with
            | Set k v =>
                refine ih (pos + n) _ unc r (idxInsert_sorted hs) ?_ hr
                intro j cp hj
                rw [idxLookup_idxInsert] at hj
                by_cases hjk : j = k
                · rw [if_pos hjk] at hj
                  cases hj
                  subst hjk
                  exact ⟨v, decodeCommand_take hd⟩
                · rw [if_neg hjk] at hj
                  exact hex j cp hj
            | Rm k =>
                refine ih (pos + n) _ _ r (idxRemove_sorted hs) ?_ hr
                intro j cp hj
                rw [idxLookup_idxRemove hs] at hj
                by_cases hjk : j = k
                · rw [if_pos hjk] at hj; cases hj
                · rw [if_neg hjk] at hj
                  exact hex j cp hj
      · rw [loadGo, if_neg hpos] at hr
        cases hr
        exact ⟨hs, hex⟩

theorem load_inv {log : List Nat} {ri : Index} {ru : Nat}
    (h : load log = .ok (ri, ru)) :
    IdxSorted ri ∧ ∀ k cp, idxLookup ri k = some cp → entryExact log k cp :=
  loadGo_inv _ 0 [] 0 (ri, ru) idxSorted_nil
    (fun _ _ hc => Option.noConfusion hc) h

theorem idxLookup_of_mem {t : Index} (hs : IdxSorted t) {e : Nat × CommandPos}
    (he : e ∈ t) : idxLookup t e.1 = some e.2 := by
  induction t with
  | nil => cases he
  | cons f t ih =>
      obtain ⟨k', cp'⟩ := f
      rw [idxSorted_cons] at hs
      obtain ⟨hlt, hp⟩ := hs
      rw [List.mem_cons] at he
      rcases he with he | he
      · subst he
        simp [idxLookup]
      · have hne : e.1 ≠ k' := by
          have := hlt e he
          simp at this
          omega
        simp only [idxLookup, if_neg hne]
        exact ih hp he

/-- Replaying the output of the compactor: every copied record is an exactly
framed `Set`, so replay inserts exactly the re-pointed entries, in order, and
accumulates no `uncompacted` bytes. -/
theorem loadGo_compacted {log : List Nat} :
    ∀ (t : Index), (∀ e ∈ t, entryExact log e.1 e.2) →
    ∀ start pre idx unc fuel, pre.length = start →
    (compactGo log start t).2.length + 1 ≤ fuel →
    loadGo (pre ++ (compactGo log start t).2) fuel start idx unc =
      .ok ((compactGo log start t).1.foldl (fun i e => (idxInsert i e.1 e.2).1) idx, unc) := by
  intro t
  induction t with
  | nil =>
      intro hex start pre idx unc fuel hpre hfuel
      show loadGo (pre ++ []) fuel start idx unc = .ok (List.foldl _ idx [], unc)
      rw [List.append_nil, List.foldl_nil]
      exact loadGo_at_end (by omega)
  | cons e t ih =>
      intro hex start pre idx unc fuel hpre hfuel
      obtain ⟨k0, cp0⟩ := e
      obtain ⟨v, hv⟩ := hex (k0, cp0) (by simp)
      have hlenle : cp0.len ≤ ((log.drop cp0.pos).take cp0.len).length :=
        decodeCommand_length_le hv
      have hlen : ((log.drop cp0.pos).take cp0.len).length = cp0.len := by
        have h2 : ((log.drop cp0.pos).take cp0.len).length ≤ cp0.len := by
          rw [List.length_take]
          exact Nat.min_le_left _ _
        omega
      have hn : 0 < cp0.len := decodeCommand_length_pos hv
      have hsplit : (compactGo log start ((k0, cp0) :: t)).2.length
          = ((log.drop cp0.pos).take cp0.len).length
            + (compactGo log (start + ((log.drop cp0.pos).take cp0.len).length) t).2.length := by
        show ((log.drop cp0.pos).take cp0.len
            ++ (compactGo log (start + ((log.drop cp0.pos).take cp0.len).length) t).2).length = _
        rw [List.length_append]
      rw [hsplit] at hfuel
      cases fuel with
      | zero => omega
      | succ f =>
          show loadGo (pre ++ ((log.drop cp0.pos).take cp0.len
              ++ (compactGo log (start + ((log.drop cp0.pos).take cp0.len).length) t).2))
              (f + 1) start idx unc
            = .ok (((k0, (⟨start, ((log.drop cp0.pos).take cp0.len).length⟩ : CommandPos))
                :: (compactGo log (start + ((log.drop cp0.pos).take cp0.len).length) t).1).foldl
                  (fun i e => (idxInsert i e.1 e.2).1) idx, unc)
          have hfull : (pre ++ ((log.drop cp0.pos).take cp0.len
              ++ (compactGo log (start + ((log.drop cp0.pos).take cp0.len).length) t).2)).length
              = start + ((log.drop cp0.pos).take cp0.len).length
                + (compactGo log (start + ((log.drop cp0.pos).take cp0.len).length) t).2.length := by
            rw [List.length_append, List.length_append, hpre]
            omega
          have hpos : start < (pre ++ ((log.drop cp0.pos).take cp0.len
              ++ (compactGo log (start + ((log.drop cp0.pos).take cp0.len).length) t).2)).length := by
            rw [hfull]
            omega
          rw [loadGo, if_pos hpos]
          have hdrop : (pre ++ ((log.drop cp0.pos).take cp0.len
              ++ (compactGo log (start + ((log.drop cp0.pos).take cp0.len).length) t).2)).drop start
              = (log.drop cp0.pos).take cp0.len
                ++ (compactGo log (start + ((log.drop cp0.pos).take cp0.len).length) t).2 := by
            rw [← hpre]
            exact List.drop_left _ _
          rw [hdrop, decodeCommand_append _ hv]
          show loadGo (pre ++ ((log.drop cp0.pos).take cp0.len
              ++ (compactGo log (start + ((log.drop cp0.pos).take cp0.len).length) t).2))
              f (start + cp0.len) (idxInsert idx k0 ⟨start, cp0.len⟩).1 unc = _
          rw [List.foldl_cons]
          have hcp : (⟨start, cp0.len⟩ : CommandPos)
              = ⟨start, ((log.drop cp0.pos).take cp0.len).length⟩ := by rw [hlen]
          rw [hcp, ← List.append_assoc, show start + cp0.len
              = start + ((log.drop cp0.pos).take cp0.len).length from by rw [hlen]]
          exact ih (fun e he => hex e (by simp [he]))
            (start + ((log.drop cp0.pos).take cp0.len).length)
            (pre ++ (log.drop cp0.pos).take cp0.len) _ unc f
            (by rw [List.length_append, hpre]) (by omega)

theorem idxLookup_foldl_idxInsert {entries : Index} :
    IdxSorted entries → ∀ idx j,
    idxLookup (entries.foldl (fun i e => (idxInsert i e.1 e.2).1) idx) j
      = match idxLookup entries j with
        | some cp => some cp
        | none => idxLookup idx j := by
  induction entries with
  | nil => intro _ idx j; rfl
  | cons e rest ih =>
      intro hs idx j
      obtain ⟨k0, cp0⟩ := e
      rw [idxSorted_cons] at hs
      obtain ⟨hlt, hp⟩ := hs
      rw [List.foldl_cons]
      rw [ih hp]
      by_cases hj : j = k0
      · subst hj
        have hnone : idxLookup rest j = none :=
          idxLookup_eq_none_of_lt fun e he => by have := hlt e he; simp at this; omega
        rw [hnone]
        simp only [idxLookup, if_pos rfl]
        rw [idxLookup_idxInsert]
        simp
      · simp only [idxLookup, if_neg hj]
        cases hrest : idxLookup rest j with
        | some cp => rfl
        | none =>
            rw [idxLookup_idxInsert, if_neg hj]

theorem foldl_idxInsert_sorted {entries : Index} :
    ∀ idx, IdxSorted idx →
    IdxSorted (entries.foldl (fun i e => (idxInsert i e.1 e.2).1) idx) := by
  induction entries with
  | nil => intro idx h; exact h
  | cons e rest ih =>
      intro idx h
      rw [List.foldl_cons]
      exact ih _ (idxInsert_sorted h)

/-- Replaying the log produced by `compact` rebuilds exactly the compacted
index (as a mapping) and returns `uncompacted = 0`. -/
theorem load_compact {s : KvStore} (hs : IdxSorted s.index)
    (hex : ∀ k cp, idxLookup s.index k = some cp → entryExact s.log k cp) :
    ∃ ri, load (KvStore.compact s).log = .ok (ri, 0) ∧ IdxSorted ri ∧
      ∀ j, idxLookup ri j = idxLookup (KvStore.compact s).index j := by
  have hmem : ∀ e ∈ s.index, entryExact s.log e.1 e.2 := fun e he =>
    hex e.1 e.2 (idxLookup_of_mem hs he)
  have hload : load (KvStore.compact s).log
      = .ok ((compactGo s.log 0 s.index).1.foldl (fun i e => (idxInsert i e.1 e.2).1) [], 0) := by
    show loadGo (compactGo s.log 0 s.index).2 ((compactGo s.log 0 s.index).2.length + 1)
        0 [] 0 = _
    have h0 : (compactGo s.log 0 s.index).2 = [] ++ (compactGo s.log 0 s.index).2 := rfl
    rw [h0]
    exact loadGo_compacted s.index hmem 0 [] [] 0 _ rfl (by simp)
  refine ⟨_, hload, foldl_idxInsert_sorted [] idxSorted_nil, ?_⟩
  intro j
  rw [idxLookup_foldl_idxInsert (compactGo_sorted hs) [] j]
  cases hc : idxLookup (compactGo s.log 0 s.index).1 j with
  | some cp =>
      rw [show (KvStore.compact s).index = (compactGo s.log 0 s.index).1 from rfl, hc]
  | none =>
      rw [show (KvStore.compact s).index = (compactGo s.log 0 s.index).1 from rfl, hc]
      rfl

/-! ### The engine invariant -/

/-- The invariant maintained by every successful public operation: the
writer sits at end-of-file, the index is a well-formed ordered map, every
index entry frames a `Set` record for its own key exactly (spec invariant 1),
and replaying the current log rebuilds the in-memory index as a mapping
(spec property 8). -/
structure Good (s : KvStore) : Prop where
  wpos : s.writerPos = s.log.length
  sorted : IdxSorted s.index
  entriesExact : ∀ k cp, idxLookup s.index k = some cp → entryExact s.log k cp
  replay : ∃ ri ru, load s.log = .ok (ri, ru) ∧ ∀ k, idxLookup ri k = idxLookup s.index k

theorem good_compact {s : KvStore} (h : Good s) : Good (KvStore.compact s) := by
  refine ⟨rfl, compactGo_sorted h.sorted, ?_, ?_⟩
  · intro j q hq
    cases hc : idxLookup s.index j with
    | none =>
        rw [show (KvStore.compact s).index = (compactGo s.log 0 s.index).1 from rfl] at hq
        rw [compactGo_lookup_none hc] at hq
        cases hq
    | some cp =>
        obtain ⟨q', hq', -, hlen', hslice⟩ := @compactGo_lookup s.log s.index j cp hc 0
        rw [show (KvStore.compact s).index = (compactGo s.log 0 s.index).1 from rfl] at hq
        rw [hq'] at hq
        cases hq
        obtain ⟨v, hv⟩ := h.entriesExact j cp hc
        have hexlen : ((s.log.drop cp.pos).take cp.len).length = cp.len := by
          have h1 : cp.len ≤ ((s.log.drop cp.pos).take cp.len).length :=
            decodeCommand_length_le hv
          have h2 : ((s.log.drop cp.pos).take cp.len).length ≤ cp.len := by
            rw [List.length_take]
            exact Nat.min_le_left _ _
          omega
        refine ⟨v, ?_⟩
        rw [show (KvStore.compact s).log = (compactGo s.log 0 s.index).2 from rfl]
        have hdrop0 : q.pos - 0 = q.pos := by omega
        rw [← hdrop0, hslice, hv, hlen', hexlen]
  · obtain ⟨ri, hload, hsorted, hmap⟩ := load_compact h.sorted h.entriesExact
    exact ⟨ri, 0, hload, hmap⟩

theorem good_emptyStore : Good emptyStore := by
  refine ⟨rfl, idxSorted_nil, ?_, ⟨[], 0, rfl, fun k => rfl⟩⟩
  intro k cp hc
  cases hc

theorem good_openStore {log : List Nat} {s : KvStore}
    (h : openStore log = .ok s) : Good s := by
  unfold openStore at h
  cases hl : load log with
  | error e => rw [hl] at h; cases h
  | ok p =>
      obtain ⟨ri, ru⟩ := p
      rw [hl] at h
      cases h
      obtain ⟨hsorted, hex⟩ := load_inv hl
      exact ⟨rfl, hsorted, hex, ⟨ri, ru, hl, fun k => rfl⟩⟩

/-- The state after the mutation part of `set`, before any compaction:
appending the `Set` record and re-pointing the key preserves the engine
invariant, whatever the new `uncompacted` value is. -/
theorem good_append_set {s : KvStore} (h : Good s) (k v : Nat) (unc2 : Nat) :
    Good { log := s.log ++ encodeCommand (.Set k v), readerPos := s.readerPos,
           writerPos := s.writerPos + (encodeCommand (.Set k v)).length,
           index := (idxInsert s.index k ⟨s.writerPos, (encodeCommand (.Set k v)).length⟩).1,
           uncompacted := unc2 } := by
  refine ⟨?_, idxInsert_sorted h.sorted, ?_, ?_⟩
  · show s.writerPos + (encodeCommand (.Set k v)).length
      = (s.log ++ encodeCommand (.Set k v)).length
    rw [List.length_append, h.wpos]
  · intro j cp hc
    show entryExact (s.log ++ encodeCommand (.Set k v)) j cp
    rw [show idxLookup
        { log := s.log ++ encodeCommand (.Set k v), readerPos := s.readerPos,
          writerPos := s.writerPos + (encodeCommand (.Set k v)).length,
          index := (idxInsert s.index k ⟨s.writerPos, (encodeCommand (.Set k v)).length⟩).1,
          uncompacted := unc2 : KvStore }.index j
        = idxLookup (idxInsert s.index k
            ⟨s.writerPos, (encodeCommand (.Set k v)).length⟩).1 j from rfl,
      idxLookup_idxInsert] at hc
    by_cases hj : j = k
    · rw [if_pos hj] at hc
      cases hc
      subst hj
      refine ⟨v, ?_⟩
      show decodeCommand (((s.log ++ encodeCommand (.Set j v)).drop s.writerPos).take
          (encodeCommand (.Set j v)).length)
        = some (.Set j v, (⟨s.writerPos, (encodeCommand (.Set j v)).length⟩ : CommandPos).len)
      rw [h.wpos, slice_at_end]
      exact decodeCommand_encode_nil _
    · rw [if_neg hj] at hc
      exact entryExact_append (h.entriesExact j cp hc)
  · obtain ⟨ri, ru, hload, hmap⟩ := h.replay
    refine ⟨(idxInsert ri k ⟨s.log.length, (encodeCommand (.Set k v)).length⟩).1, ru, ?_, ?_⟩
    · exact load_append_cmd (.Set k v) hload
    · intro j
      show idxLookup _ j
        = idxLookup (idxInsert s.index k ⟨s.writerPos, (encodeCommand (.Set k v)).length⟩).1 j
      rw [idxLookup_idxInsert, idxLookup_idxInsert]
      by_cases hj : j = k
      · rw [if_pos hj, if_pos hj, h.wpos]
      · rw [if_neg hj, if_neg hj]
        exact hmap j

/-- The state after the mutation part of a successful `remove`, before any
compaction, preserves the engine invariant. -/
theorem good_append_remove {s : KvStore} (h : Good s) (k : Nat) (unc2 : Nat) :
    Good { log := s.log ++ encodeCommand (.Rm k), readerPos := s.readerPos,
           writerPos := s.writerPos + (encodeCommand (.Rm k)).length,
           index := (idxRemove s.index k).1,
           uncompacted := unc2 } := by
  refine ⟨?_, idxRemove_sorted h.sorted, ?_, ?_⟩
  · show s.writerPos + (encodeCommand (.Rm k)).length = (s.log ++ encodeCommand (.Rm k)).length
    rw [List.length_append, h.wpos]
  · intro j cp hc
    show entryExact (s.log ++ encodeCommand (.Rm k)) j cp
    rw [show idxLookup
        { log := s.log ++ encodeCommand (.Rm k), readerPos := s.readerPos,
          writerPos := s.writerPos + (encodeCommand (.Rm k)).length,
          index := (idxRemove s.index k).1, uncompacted := unc2 : KvStore }.index j
        = idxLookup (idxRemove s.index k).1 j from rfl,
      idxLookup_idxRemove h.sorted] at hc
    by_cases hj : j = k
    · rw [if_pos hj] at hc; cases hc
    · rw [if_neg hj] at hc
      exact entryExact_append (h.entriesExact j cp hc)
  · obtain ⟨ri, ru, hload, hmap⟩ := h.replay
    have hrisorted : IdxSorted ri := (load_inv hload).1
    refine ⟨(idxRemove ri k).1, _, load_append_cmd (.Rm k) hload, ?_⟩
    intro j
    show idxLookup (idxRemove ri k).1 j = idxLookup (idxRemove s.index k).1 j
    rw [idxLookup_idxRemove hrisorted, idxLookup_idxRemove h.sorted]
    by_cases hj : j = k
    · rw [if_pos hj, if_pos hj]
    · rw [if_neg hj, if_neg hj]
      exact hmap j

theorem good_set {s : KvStore} (h : Good s) (k v : Nat) : Good (KvStore.set s k v) := by
  have hw : writeBytes s.log s.writerPos (encodeCommand (.Set k v))
      = s.log ++ encodeCommand (.Set k v) := by
    rw [h.wpos]; exact writeBytes_at_end _ _
  unfold KvStore.set
  simp only [Nat.add_sub_cancel_left, hw]
  split
  · exact good_compact (good_append_set h k v _)
  · exact good_append_set h k v _

theorem good_remove {s : KvStore} (h : Good s) (k : Nat) :
    Good ((KvStore.remove s k).1) := by
  have hw : writeBytes s.log s.writerPos (encodeCommand (.Rm k))
      = s.log ++ encodeCommand (.Rm k) := by
    rw [h.wpos]; exact writeBytes_at_end _ _
  unfold KvStore.remove
  cases hr : (idxRemove s.index k).2 with
  | some old =>
      simp only [hr, hw]
      by_cases hT : COMPACTION_THRESHOLD
          < s.uncompacted + (s.writerPos + (encodeCommand (.Rm k)).length - s.writerPos)
            + old.len
      · rw [if_pos hT]
        exact good_compact (good_append_remove h k _)
      · rw [if_neg hT]
        exact good_append_remove h k _
  | none =>
      simp only [hr]
      exact h

theorem good_get {s : KvStore} (h : Good s) (k : Nat) : Good ((KvStore.get s k).1) := by
  have hfields : ∀ rp : Nat, Good { s with readerPos := rp } :=
    fun rp => ⟨h.wpos, h.sorted, h.entriesExact, h.replay⟩
  unfold KvStore.get
  cases hc : idxLookup s.index k with
  | none =>
      simp only [hc]
      exact h
  | some cp =>
      simp only [hc]
      cases hd : decodeCommand ((s.log.drop cp.pos).take cp.len) with
      | none =>
          simp only [hd]
          exact hfields _
      | some p =>
          obtain ⟨c, n⟩ := p
          cases c with
          | Set k0 v0 =>
              simp only [hd]
              exact hfields _
          | Rm k0 =>
              simp only [hd]
              exact hfields _

/-- Every state produced by successful public operations satisfies the engine
invariant. -/
theorem reachable_good {s : KvStore} (h : Reachable s) : Good s := by
  induction h with
  | openR log s hopen => exact good_openStore hopen
  | setR s k v _ ih => exact good_set ih k v
  | removeR s k _ ih => exact good_remove ih k
  | getR s k _ ih => exact good_get ih k

/-! ### Observable values -/

/-- The result of `get` as a function of the index entry and the framed
bytes. -/
theorem get_snd (s : KvStore) (j : Nat) :
    (KvStore.get s j).2 = match idxLookup s.index j with
      | none => .ok none
      | some cp =>
          match decodeCommand ((s.log.drop cp.pos).take cp.len) with
          | some (.Set _ v, _) => .ok (some v)
          | some (.Rm _, _) => .error .UnexpectedCommandType
          | none => .error .Des := by
  unfold KvStore.get
  cases hc : idxLookup s.index j with
  | none => simp [hc]
  | some cp =>
      simp only [hc]
      cases hd : decodeCommand ((s.log.drop cp.pos).take cp.len) with
      | none => simp [hd]
      | some p =>
          obtain ⟨c, n⟩ := p
          cases c <;> simp [hd]

theorem get_after_set {s : KvStore} (h : Good s) (k v j : Nat) :
    ((KvStore.set s k v).get j).2 = if j = k then .ok (some v) else (KvStore.get s j).2 := by
  have hw : writeBytes s.log s.writerPos (encodeCommand (.Set k v))
      = s.log ++ encodeCommand (.Set k v) := by
    rw [h.wpos]; exact writeBytes_at_end _ _
  have hmid : ∀ unc2 : Nat,
      (KvStore.get { log := s.log ++ encodeCommand (.Set k v), readerPos := s.readerPos,
                     writerPos := s.writerPos + (encodeCommand (.Set k v)).length,
                     index := (idxInsert s.index k
                       ⟨s.writerPos, (encodeCommand (.Set k v)).length⟩).1,
                     uncompacted := unc2 } j).2
      = if j = k then .ok (some v) else (KvStore.get s j).2 := by
    intro unc2
    rw [get_snd, get_snd]
    show (match idxLookup (idxInsert s.index k
        ⟨s.writerPos, (encodeCommand (.Set k v)).length⟩).1 j with
      | none => (Except.ok none : Except KvsError (Option Nat))
      | some cp =>
          match decodeCommand (((s.log ++ encodeCommand (.Set k v)).drop cp.pos).take cp.len) with
          | some (Command.Set _ v, _) => Except.ok (some v)
          | some (Command.Rm _, _) => Except.error KvsError.UnexpectedCommandType
          | none => Except.error KvsError.Des) = _
    rw [idxLookup_idxInsert]
    by_cases hj : j = k
    · rw [if_pos hj, if_pos hj]
      show (match decodeCommand (((s.log ++ encodeCommand (.Set k v)).drop s.writerPos).take
          (encodeCommand (.Set k v)).length) with
        | some (Command.Set _ v, _) => (Except.ok (some v) : Except KvsError (Option Nat))
        | some (Command.Rm _, _) => Except.error KvsError.UnexpectedCommandType
        | none => Except.error KvsError.Des) = Except.ok (some v)
      rw [h.wpos, slice_at_end, decodeCommand_encode_nil]
    · rw [if_neg hj, if_neg hj]
      cases hc : idxLookup s.index j with
      | none => rfl
      | some cp =>
          have hbound := entryExact_bound (h.entriesExact j cp hc)
          simp only [slice_append hbound]
  unfold KvStore.set
  simp only [Nat.add_sub_cancel_left, hw]
  by_cases hT : COMPACTION_THRESHOLD < s.uncompacted +
      (match (idxInsert s.index k ⟨s.writerPos, (encodeCommand (.Set k v)).length⟩).2 with
       | some old => old.len | none => 0)
  · rw [if_pos hT, get_after_compact]
    exact hmid _
  · rw [if_neg hT]
    exact hmid _

theorem get_after_remove {s : KvStore} (h : Good s) (k j : Nat) :
    (((KvStore.remove s k).1).get j).2 = if j = k then .ok none else (KvStore.get s j).2 := by
  have hw : writeBytes s.log s.writerPos (encodeCommand (.Rm k))
      = s.log ++ encodeCommand (.Rm k) := by
    rw [h.wpos]; exact writeBytes_at_end _ _
  have hmid : ∀ unc2 : Nat,
      (KvStore.get { log := s.log ++ encodeCommand (.Rm k), readerPos := s.readerPos,
                     writerPos := s.writerPos + (encodeCommand (.Rm k)).length,
                     index := (idxRemove s.index k).1, uncompacted := unc2 } j).2
      = if j = k then .ok none else (KvStore.get s j).2 := by
    intro unc2
    rw [get_snd, get_snd]
    show (match idxLookup (idxRemove s.index k).1 j with
      | none => (Except.ok none : Except KvsError (Option Nat))
      | some cp =>
          match decodeCommand (((s.log ++ encodeCommand (.Rm k)).drop cp.pos).take cp.len) with
          | some (Command.Set _ v, _) => Except.ok (some v)
          | some (Command.Rm _, _) => Except.error KvsError.UnexpectedCommandType
          | none => Except.error KvsError.Des) = _
    rw [idxLookup_idxRemove h.sorted]
    by_cases hj : j = k
    · rw [if_pos hj, if_pos hj]
    · rw [if_neg hj, if_neg hj]
      cases hc : idxLookup s.index j with
      | none => rfl
      | some cp =>
          have hbound := entryExact_bound (h.entriesExact j cp hc)
          simp only [slice_append hbound]
  unfold KvStore.remove
  cases hr : (idxRemove s.index k).2 with
  | some old =>
      simp only [hr, hw]
      by_cases hT : COMPACTION_THRESHOLD
          < s.uncompacted + (s.writerPos + (encodeCommand (.Rm k)).length - s.writerPos)
            + old.len
      · rw [if_pos hT]
        show ((KvStore.compact _).get j).2 = _
        rw [get_after_compact]
        exact hmid _
      · rw [if_neg hT]
        exact hmid _
  | none =>
      simp only [hr]
      have hkey : idxLookup s.index k = none := by
        rw [← idxRemove_snd]; exact hr
      by_cases hj : j = k
      · subst hj
        rw [if_pos rfl]
        show (KvStore.get s j).2 = _
        rw [get_snd, hkey]
      · rw [if_neg hj]

theorem get_fst_fields (s : KvStore) (k : Nat) :
    ((KvStore.get s k).1).log = s.log ∧ ((KvStore.get s k).1).index = s.index := by
  unfold KvStore.get
  cases hc : idxLookup s.index k with
  | none => simp [hc]
  | some cp =>
      simp only [hc]
      cases hd : decodeCommand ((s.log.drop cp.pos).take cp.len) with
      | none => simp [hd]
      | some p =>
          obtain ⟨c, n⟩ := p
          cases c <;> simp [hd]

theorem get_after_get (s : KvStore) (k j : Nat) :
    (((KvStore.get s k).1).get j).2 = (KvStore.get s j).2 := by
  rw [get_snd (KvStore.get s k).1 j, get_snd s j, (get_fst_fields s k).1,
    (get_fst_fields s k).2]

/-- Refinement of the engine against the abstract map semantics: starting
from any good state whose observations agree with `m`, every operation
sequence keeps the observations in lock-step with `specRun`. -/
theorem runOps_spec : ∀ (ops : List Op) (s : KvStore) (m : Nat → Option Nat), Good s →
    (∀ j, (KvStore.get s j).2 = .ok (m j)) →
    ∀ j, ((runOps s ops).get j).2 = .ok (specRun m ops j) := by
  intro ops
  induction ops with
  | nil => intro s m _ hm j; exact hm j
  | cons op rest ih =>
      intro s m hg hm j
      cases op with
      | set k v =>
          show ((runOps (KvStore.set s k v) rest).get j).2
            = .ok (specRun (specStep m (.set k v)) rest j)
          refine ih _ _ (good_set hg k v) ?_ j
          intro i
          rw [get_after_set hg k v i]
          by_cases hik : i = k
          · rw [if_pos hik]
            simp [specStep, hik]
          · rw [if_neg hik, hm i]
            simp [specStep, hik]
      | remove k =>
          show ((runOps ((KvStore.remove s k).1) rest).get j).2
            = .ok (specRun (specStep m (.remove k)) rest j)
          refine ih _ _ (good_remove hg k) ?_ j
          intro i
          rw [get_after_remove hg k i]
          by_cases hik : i = k
          · rw [if_pos hik]
            simp [specStep, hik]
          · rw [if_neg hik, hm i]
            simp [specStep, hik]
      | get k =>
          show ((runOps ((KvStore.get s k).1) rest).get j).2
            = .ok (specRun (specStep m (.get k)) rest j)
          refine ih _ _ (good_get hg k) ?_ j
          intro i
          rw [get_after_get s k i, hm i]
          rfl

/-! ### Auxiliary facts for the fault-injection model -/

theorem compactFaultyGo_keys (log : List Nat) :
    ∀ (t : Index) (start failAt : Nat),
    (compactFaultyGo log start t failAt).map Prod.fst = t.map Prod.fst := by
  intro t
  induction t with
  | nil => intro start failAt; cases failAt <;> rfl
  | cons e t ih =>
      intro start failAt
      obtain ⟨k, cp⟩ := e
      cases failAt with
      | zero => rfl
      | succ j => simp [compactFaultyGo, ih]

theorem compactFaultyGo_zero (log : List Nat) (start : Nat) (t : Index) :
    compactFaultyGo log start t 0 = t := by
  cases t with
  | nil => rfl
  | cons e t => obtain ⟨k, cp⟩ := e; rfl

theorem idxInsert_length_pos (t : Index) (k : Nat) (cp : CommandPos) :
    0 < (idxInsert t k cp).1.length := by
  cases t with
  | nil => simp [idxInsert]
  | cons e t =>
      obtain ⟨k', cp'⟩ := e
      by_cases h1 : k < k'
      · simp [idxInsert, h1]
      · by_cases h2 : k = k' <;> simp [idxInsert, h1, h2]

/-! ### Concrete stores used by the witnesses -/

/-- A store whose log holds a superseded `Set 0 7` and the live `Set 0 8`
the index points at. -/
def c5store : KvStore := ⟨[0, 0, 7, 0, 0, 8], 0, 6, [(0, ⟨3, 3⟩)], 0⟩

/-- A store exercising the three `get` branches: key 0 absent, key 5 framed
as a `Set`, key 6 (incorrectly) framed as a `Rm`. -/
def c7store : KvStore := ⟨[0, 5, 9, 1, 6], 0, 5, [(5, ⟨0, 3⟩), (6, ⟨3, 2⟩)], 0⟩

/-- A store with one live entry for key 0. -/
def c8store : KvStore := ⟨[0, 0, 7], 0, 3, [(0, ⟨0, 3⟩)], 0⟩

/-- A store one displaced byte short of compaction, whose log starts with a
`Rm` record: re-pointing an entry to offset 0 makes `get` decode that `Rm`. -/
def c10store : KvStore := ⟨[1, 5, 0, 1, 8], 0, 5, [(1, ⟨2, 3⟩)], 1048577⟩

/-! ### The claims -/

/-- C1: the claim states that after every successful compaction the engine's
`uncompacted` counter equals 0, the compactor's final step setting
`uncompacted := 0`.  The source's `KvStore::compact` never touches
`uncompacted`: it is carried over unchanged, so after a compaction triggered
inside `set` the counter still holds its pre-compaction value (1048577 in the
evaluated run), not 0.  This contradicts the field's own documentation
("bytes occupied by stale commands that could be deleted during a
compaction") and makes every subsequent write re-trigger compaction. -/
theorem c1_compaction_leaves_uncompacted_nonzero :
    (∀ s : KvStore, (KvStore.compact s).uncompacted = s.uncompacted) ∧
    KvStore.set ⟨[0, 0, 7], 0, 3, [(0, ⟨0, 3⟩)], 1048577⟩ 1 9
      = KvStore.compact ⟨[0, 0, 7, 0, 1, 9], 0, 6, [(0, ⟨0, 3⟩), (1, ⟨3, 3⟩)], 1048577⟩ ∧
    (KvStore.set ⟨[0, 0, 7], 0, 3, [(0, ⟨0, 3⟩)], 1048577⟩ 1 9).uncompacted = 1048577 :=
  ⟨fun _ => rfl, by decide, by decide⟩

/-- C2: the claim states that replay adds the superseded entry's length to
`uncompacted` whenever a `Set` displaces an existing index entry.  The
source's `load` ignores the displaced entry in its `Set` branch: replaying a
log of two `Set` records for the same key returns `uncompacted = 0` although
3 bytes are superseded — while the in-memory counter after the same two
`set` calls is 3.  This contradicts `load`'s own documentation ("Returns how
many bytes can be saved after a compaction"). -/
theorem c2_replay_uncompacted_misses_superseded_sets :
    load (encodeCommand (.Set 0 1) ++ encodeCommand (.Set 0 2))
      = .ok ([(0, ⟨3, 3⟩)], 0) ∧
    (KvStore.set (KvStore.set emptyStore 0 1) 0 2).uncompacted = 3 :=
  ⟨by decide, by decide⟩

/-- C3: after every successful public operation, every index entry `(off,
len)` deserializes, from exactly the `len` bytes at offset `off` of the
current log, to a `Set` record whose key is the index key; hence `get` can
never hit the `UnexpectedCommandType` branch on such states. -/
theorem c3_index_entries_frame_set_records {s : KvStore} (h : Reachable s) :
    (∀ k cp, idxLookup s.index k = some cp →
      ∃ v, decodeCommand ((s.log.drop cp.pos).take cp.len) = some (.Set k v, cp.len)) ∧
    ∀ k, (KvStore.get s k).2 ≠ .error .UnexpectedCommandType := by
  have hg := reachable_good h
  refine ⟨hg.entriesExact, ?_⟩
  intro k
  rw [get_snd]
  cases hc : idxLookup s.index k with
  | none => simp
  | some cp =>
      obtain ⟨v, hv⟩ := hg.entriesExact k cp hc
      simp [hv]

/-- Witness for C3 at a concrete reachable state. -/
theorem c3_witness :
    (∀ k cp, idxLookup (KvStore.set emptyStore 3 7).index k = some cp →
      ∃ v, decodeCommand (((KvStore.set emptyStore 3 7).log.drop cp.pos).take cp.len)
        = some (.Set k v, cp.len)) ∧
    ∀ k, (KvStore.get (KvStore.set emptyStore 3 7) k).2 ≠ .error .UnexpectedCommandType :=
  c3_index_entries_frame_set_records
    (Reachable.setR emptyStore 3 7 (Reachable.openR [] emptyStore rfl))

/-- C4: replay fidelity — for every reachable state, reopening the current
log succeeds and yields a store whose `get` results agree with the in-memory
store on every key. -/
theorem c4_replay_rebuilds_observable_index {s : KvStore} (h : Reachable s) :
    ∃ s2, openStore s.log = .ok s2 ∧
      ∀ k, (KvStore.get s2 k).2 = (KvStore.get s k).2 := by
  have hg := reachable_good h
  obtain ⟨ri, ru, hload, hmap⟩ := hg.replay
  refine ⟨{ log := s.log, readerPos := s.log.length, writerPos := s.log.length,
            index := ri, uncompacted := ru }, ?_, ?_⟩
  · unfold openStore
    rw [hload]
  · intro k
    rw [get_snd, get_snd]
    show (match idxLookup ri k with
      | none => (Except.ok none : Except KvsError (Option Nat))
      | some cp =>
          match decodeCommand ((s.log.drop cp.pos).take cp.len) with
          | some (Command.Set _ v, _) => Except.ok (some v)
          | some (Command.Rm _, _) => Except.error KvsError.UnexpectedCommandType
          | none => Except.error KvsError.Des) = _
    rw [hmap k]

/-- Witness for C4 at a concrete reachable state. -/
theorem c4_witness :
    ∃ s2, openStore (KvStore.set emptyStore 3 7).log = .ok s2 ∧
      ∀ k, (KvStore.get s2 k).2 = (KvStore.get (KvStore.set emptyStore 3 7) k).2 :=
  c4_replay_rebuilds_observable_index
    (Reachable.setR emptyStore 3 7 (Reachable.openR [] emptyStore rfl))

/-- C5: compaction preserves every observable `get` result (proved for every
state, reachable or not), and each entry of the compacted index has a length
equal to the number of bytes stored at its new offset. -/
theorem c5_compaction_preserves_gets (s : KvStore) :
    (∀ k, ((KvStore.compact s).get k).2 = (KvStore.get s k).2) ∧
    (∀ k cp, idxLookup (KvStore.compact s).index k = some cp →
      (((KvStore.compact s).log.drop cp.pos).take cp.len).length = cp.len) := by
  refine ⟨fun k => get_after_compact s k, ?_⟩
  intro k cp hc
  have hc2 : idxLookup (compactGo s.log 0 s.index).1 k = some cp := hc
  cases ho : idxLookup s.index k with
  | none => rw [compactGo_lookup_none ho] at hc2; cases hc2
  | some cpOld =>
      obtain ⟨q, hq, -, hlen, hslice⟩ := @compactGo_lookup s.log s.index k cpOld ho 0
      rw [hq] at hc2
      injection hc2 with hqe
      rw [← hqe]
      show (((compactGo s.log 0 s.index).2.drop q.pos).take q.len).length = q.len
      have h0 : q.pos - 0 = q.pos := Nat.sub_zero _
      rw [← h0, hslice, hlen]

/-- Witness for C5 at a concrete state with one superseded record. -/
theorem c5_witness :
    ((KvStore.compact c5store).get 0).2 = (KvStore.get c5store 0).2 ∧
    (((KvStore.compact c5store).log.drop 0).take 3).length = 3 :=
  ⟨(c5_compaction_preserves_gets c5store).1 0,
   (c5_compaction_preserves_gets c5store).2 0 ⟨0, 3⟩ (by decide)⟩

/-- C6: `remove` on a key absent from the index fails with
`NonExistentKey(key)` and returns the state completely unchanged — nothing
is written. -/
theorem c6_remove_absent_key (s : KvStore) (k : Nat)
    (h : idxLookup s.index k = none) :
    KvStore.remove s k = (s, some (.NonExistentKey k)) := by
  unfold KvStore.remove
  have hr : (idxRemove s.index k).2 = none := by rw [idxRemove_snd]; exact h
  simp only [hr]

/-- Witness for C6 on the empty store. -/
theorem c6_witness :
    idxLookup emptyStore.index 5 = none ∧
    KvStore.remove emptyStore 5 = (emptyStore, some (.NonExistentKey 5)) :=
  ⟨rfl, c6_remove_absent_key emptyStore 5 rfl⟩

/-- C7: `get` returns `None` for a key absent from the index; for a present
key it deserializes the recorded byte range and returns `Some value` when the
record is a `Set` (whatever its key), and fails with `UnexpectedCommandType`
when the record is a `Rm`. -/
theorem c7_get_cases (s : KvStore) (k : Nat) :
    (idxLookup s.index k = none → (KvStore.get s k).2 = .ok none) ∧
    (∀ cp k2 v n, idxLookup s.index k = some cp →
      decodeCommand ((s.log.drop cp.pos).take cp.len) = some (.Set k2 v, n) →
      (KvStore.get s k).2 = .ok (some v)) ∧
    (∀ cp k2 n, idxLookup s.index k = some cp →
      decodeCommand ((s.log.drop cp.pos).take cp.len) = some (.Rm k2, n) →
      (KvStore.get s k).2 = .error .UnexpectedCommandType) := by
  refine ⟨?_, ?_, ?_⟩
  · intro h
    rw [get_snd]
    simp [h]
  · intro cp k2 v n hc hd
    rw [get_snd]
    simp [hc, hd]
  · intro cp k2 n hc hd
    rw [get_snd]
    simp [hc, hd]

/-- Witness for C7: one store exercising all three branches. -/
theorem c7_witness :
    (KvStore.get c7store 0).2 = .ok none ∧
    (KvStore.get c7store 5).2 = .ok (some 9) ∧
    (KvStore.get c7store 6).2 = .error .UnexpectedCommandType :=
  ⟨(c7_get_cases c7store 0).1 (by decide),
   (c7_get_cases c7store 5).2.1 ⟨0, 3⟩ 5 9 3 (by decide) (by decide),
   (c7_get_cases c7store 6).2.2 ⟨3, 2⟩ 6 2 (by decide) (by decide)⟩

/-- C8: `set` appends one `Set` record at the writer position, inserts
`key → (off, new_off − off)` into the index, adds the displaced entry's
length to `uncompacted` exactly when an entry was displaced, and invokes the
compactor if and only if `uncompacted` then strictly exceeds the 1 MiB
threshold. -/
theorem c8_set_appends_inserts_compacts (s : KvStore) (k v : Nat)
    (hs : IdxSorted s.index) (h : s.writerPos = s.log.length) :
    KvStore.set s k v =
      if COMPACTION_THRESHOLD < s.uncompacted +
          (match idxLookup s.index k with | some old => old.len | none => 0) then
        KvStore.compact
          { log := s.log ++ encodeCommand (.Set k v), readerPos := s.readerPos,
            writerPos := s.writerPos + (encodeCommand (.Set k v)).length,
            index := (idxInsert s.index k
              ⟨s.writerPos, (encodeCommand (.Set k v)).length⟩).1,
            uncompacted := s.uncompacted +
              (match idxLookup s.index k with | some old => old.len | none => 0) }
      else
        { log := s.log ++ encodeCommand (.Set k v), readerPos := s.readerPos,
          writerPos := s.writerPos + (encodeCommand (.Set k v)).length,
          index := (idxInsert s.index k
            ⟨s.writerPos, (encodeCommand (.Set k v)).length⟩).1,
          uncompacted := s.uncompacted +
            (match idxLookup s.index k with | some old => old.len | none => 0) } := by
  have hw : writeBytes s.log s.writerPos (encodeCommand (.Set k v))
      = s.log ++ encodeCommand (.Set k v) := by
    rw [h]; exact writeBytes_at_end _ _
  unfold KvStore.set
  simp only [Nat.add_sub_cancel_left, hw, idxInsert_snd hs]

/-- Witness for C8 on a concrete store with one displaced entry. -/
theorem c8_witness :
    IdxSorted c8store.index ∧ c8store.writerPos = c8store.log.length ∧
    KvStore.set c8store 0 9 =
      if COMPACTION_THRESHOLD < c8store.uncompacted +
          (match idxLookup c8store.index 0 with | some old => old.len | none => 0) then
        KvStore.compact
          { log := c8store.log ++ encodeCommand (.Set 0 9), readerPos := c8store.readerPos,
            writerPos := c8store.writerPos + (encodeCommand (.Set 0 9)).length,
            index := (idxInsert c8store.index 0
              ⟨c8store.writerPos, (encodeCommand (.Set 0 9)).length⟩).1,
            uncompacted := c8store.uncompacted +
              (match idxLookup c8store.index 0 with | some old => old.len | none => 0) }
      else
        { log := c8store.log ++ encodeCommand (.Set 0 9), readerPos := c8store.readerPos,
          writerPos := c8store.writerPos + (encodeCommand (.Set 0 9)).length,
          index := (idxInsert c8store.index 0
            ⟨c8store.writerPos, (encodeCommand (.Set 0 9)).length⟩).1,
          uncompacted := c8store.uncompacted +
            (match idxLookup c8store.index 0 with | some old => old.len | none => 0) } :=
  ⟨by simp [IdxSorted, c8store], by decide,
   c8_set_appends_inserts_compacts c8store 0 9 (by simp [IdxSorted, c8store]) (by decide)⟩

/-- C9: for every sequence of operations from a fresh store, `get(k)`
returns exactly the abstract map semantics — `Some` of the most recent
`set(k, ·)` not erased by a later `remove(k)`, else `None`; in particular
overwrite keeps the last value and a `Remove` followed by a `Set` leaves the
key present. -/
theorem c9_get_returns_latest_set :
    (∀ (ops : List Op) (k : Nat),
      ((runOps emptyStore ops).get k).2 = .ok (specRun (fun _ => none) ops k)) ∧
    ((runOps emptyStore [.set 0 1, .set 0 2]).get 0).2 = .ok (some 2) ∧
    ((runOps emptyStore [.set 0 1, .remove 0, .set 0 2]).get 0).2 = .ok (some 2) :=
  ⟨fun ops k => runOps_spec ops emptyStore _ good_emptyStore (fun _ => rfl) k,
   by decide, by decide⟩

/-- C10 counterexample: the claim states that when the compaction invoked at
the end of `set(key, value)` fails, a subsequent `get(key)` observes the new
value.  In this concrete run the compaction's `io::copy` fails on the second
index entry after re-pointing the first (the written key, sorted first) to
its offset in the never-installed new log; `get(key)` then decodes a `Rm`
record from the old log and fails with `UnexpectedCommandType` instead of
returning the new value. -/
theorem c10_counterexample :
    (KvStore.setFaulty c10store 0 9 1).2 = some .Io ∧
    ((KvStore.setFaulty c10store 0 9 1).1.get 0).2 = .error .UnexpectedCommandType ∧
    ((KvStore.setFaulty c10store 0 9 1).1.get 0).2 ≠ .ok (some 9) :=
  ⟨by decide, by decide, by decide⟩

/-- C10 (amended): when the compaction invoked at the end of `set` or
`remove` fails, the operation returns that error and the mutation is not
rolled back — the record is appended and the index updated before compaction
runs.  If the compaction fails before re-pointing any index entry, a
subsequent `get(key)` observes the new value for `set`; for `remove`,
`get(key)` observes absence whatever point the compaction failed at.  (If it
fails after re-pointing the written key's entry, the entry may point into the
discarded new log and `get` can fail instead — see the counterexample.) -/
theorem c10_mutation_not_rolled_back {s : KvStore} (k v : Nat)
    (hs : IdxSorted s.index) (h : s.writerPos = s.log.length)
    (htrig : COMPACTION_THRESHOLD < s.uncompacted +
      (match idxLookup s.index k with | some old => old.len | none => 0)) :
    (KvStore.setFaulty s k v 0).2 = some .Io ∧
    (KvStore.setFaulty s k v 0).1.log = s.log ++ encodeCommand (.Set k v) ∧
    ((KvStore.setFaulty s k v 0).1.get k).2 = .ok (some v) ∧
    (∀ failAt old, idxLookup s.index k = some old →
      ((KvStore.removeFaulty s k failAt).1.get k).2 = .ok none) := by
  have hw : writeBytes s.log s.writerPos (encodeCommand (.Set k v))
      = s.log ++ encodeCommand (.Set k v) := by
    rw [h]; exact writeBytes_at_end _ _
  have hset : KvStore.setFaulty s k v 0
      = ({ log := s.log ++ encodeCommand (.Set k v), readerPos := s.readerPos,
           writerPos := s.writerPos + (encodeCommand (.Set k v)).length,
           index := (idxInsert s.index k
             ⟨s.writerPos, (encodeCommand (.Set k v)).length⟩).1,
           uncompacted := s.uncompacted +
             (match idxLookup s.index k with | some old => old.len | none => 0) },
         some .Io) := by
    unfold KvStore.setFaulty
    simp only [Nat.add_sub_cancel_left, hw, idxInsert_snd hs]
    rw [if_pos htrig]
    unfold KvStore.compactFaulty
    have hlenpos : (0 : Nat) < (idxInsert s.index k
        ⟨s.writerPos, (encodeCommand (.Set k v)).length⟩).1.length :=
      idxInsert_length_pos _ _ _
    rw [if_pos hlenpos, compactFaultyGo_zero]
  refine ⟨by rw [hset], by rw [hset], ?_, ?_⟩
  · rw [hset]
    rw [get_snd]
    show (match idxLookup (idxInsert s.index k
        ⟨s.writerPos, (encodeCommand (.Set k v)).length⟩).1 k with
      | none => (Except.ok none : Except KvsError (Option Nat))
      | some cp =>
          match decodeCommand (((s.log ++ encodeCommand (.Set k v)).drop cp.pos).take cp.len) with
          | some (Command.Set _ v, _) => Except.ok (some v)
          | some (Command.Rm _, _) => Except.error KvsError.UnexpectedCommandType
          | none => Except.error KvsError.Des) = _
    rw [idxLookup_idxInsert, if_pos rfl]
    show (match decodeCommand (((s.log ++ encodeCommand (.Set k v)).drop s.writerPos).take
        (encodeCommand (.Set k v)).length) with
      | some (Command.Set _ v, _) => (Except.ok (some v) : Except KvsError (Option Nat))
      | some (Command.Rm _, _) => Except.error KvsError.UnexpectedCommandType
      | none => Except.error KvsError.Des) = Except.ok (some v)
    rw [h, slice_at_end, decodeCommand_encode_nil]
  · intro failAt old hold
    have hr2 : (idxRemove s.index k).2 = some old := by rw [idxRemove_snd]; exact hold
    have hwr : writeBytes s.log s.writerPos (encodeCommand (.Rm k))
        = s.log ++ encodeCommand (.Rm k) := by
      rw [h]; exact writeBytes_at_end _ _
    have hknone : idxLookup (idxRemove s.index k).1 k = none := by
      rw [idxLookup_idxRemove hs, if_pos rfl]
    unfold KvStore.removeFaulty
    simp only [hr2, hwr]
    by_cases hT : COMPACTION_THRESHOLD < s.uncompacted
        + (s.writerPos + (encodeCommand (.Rm k)).length - s.writerPos) + old.len
    · rw [if_pos hT]
      unfold KvStore.compactFaulty
      by_cases hf : failAt < (idxRemove s.index k).1.length
      · rw [if_pos hf]
        rw [get_snd]
        have hfk : idxLookup (compactFaultyGo (s.log ++ encodeCommand (.Rm k)) 0
            (idxRemove s.index k).1 failAt) k = none := by
          rw [idxLookup_eq_none_iff, compactFaultyGo_keys]
          rw [idxLookup_eq_none_iff] at hknone
          exact hknone
        simp [hfk]
      · rw [if_neg hf]
        show ((KvStore.compact _).get k).2 = _
        rw [get_after_compact, get_snd]
        simp [hknone]
    · rw [if_neg hT]
      show (KvStore.get _ k).2 = _
      rw [get_snd]
      simp [hknone]

/-- Witness for the amended C10 at a concrete store, covering both the `set`
part (failure before any re-pointing) and the `remove` part. -/
theorem c10_witness :
    (KvStore.setFaulty c10store 1 9 0).2 = some .Io ∧
    (KvStore.setFaulty c10store 1 9 0).1.log = c10store.log ++ encodeCommand (.Set 1 9) ∧
    ((KvStore.setFaulty c10store 1 9 0).1.get 1).2 = .ok (some 9) ∧
    ((KvStore.removeFaulty c10store 1 0).1.get 1).2 = .ok none :=
  have hthm := c10_mutation_not_rolled_back (s := c10store) 1 9
    (by simp [IdxSorted, c10store]) (by decide) (by decide)
  ⟨hthm.1, hthm.2.1, hthm.2.2.1, hthm.2.2.2 0 ⟨2, 3⟩ (by decide)⟩
